import Mathlib

/- Shallow embedding of the DstRF source-estimation core (dstrf/_model.py).

   Matrices are Mathlib matrices over an arbitrary linear ordered field
   (instantiated at ℚ in concrete witnesses; the source computes with IEEE
   doubles, the spec's properties are stated over exact real arithmetic).
   External numeric library calls (LAPACK cholesky / solve / eig, math.sqrt,
   scipy.linalg.norm) are modelled as oracle parameters together with the
   algebraic facts those routines guarantee in exact arithmetic: a `solve`
   result is the given inverse factor times the right-hand side, an
   eigendecomposition of a symmetric matrix is an orthogonal `v` and a real
   vector `e` with `z = v · diag e · vᵀ`, a square root `s` of `a` satisfies
   `0 ≤ s` and `s ^ 2 = a`. -/

namespace DstRF

open Matrix

variable {α : Type*} [LinearOrderedField α]

/-- Frobenius inner product of two equally shaped matrices: this is
`np.sum(inner1d(A, B))` as used in `DstRF._construct_f`, the sum of all
entrywise products. -/
def frob {n m : ℕ} (A B : Matrix (Fin n) (Fin m) α) : α :=
  ∑ i, ∑ j, A i j * B i j

/-- Squared Frobenius norm, `(A ** 2).sum()` in the source. -/
def frobSq {n m : ℕ} (A : Matrix (Fin n) (Fin m) α) : α := frob A A

lemma frob_eq_trace {n m : ℕ} (A B : Matrix (Fin n) (Fin m) α) :
    frob A B = Matrix.trace (Aᵀ * B) := by
  unfold frob Matrix.trace
  simp only [Matrix.diag, Matrix.mul_apply, Matrix.transpose_apply]
  exact Finset.sum_comm

lemma frob_comm {n m : ℕ} (A B : Matrix (Fin n) (Fin m) α) :
    frob A B = frob B A := by
  unfold frob
  exact Finset.sum_congr rfl fun i _ => Finset.sum_congr rfl fun j _ => mul_comm _ _

lemma frob_neg_left {n m : ℕ} (A B : Matrix (Fin n) (Fin m) α) :
    frob (-A) B = -frob A B := by
  unfold frob
  simp [neg_mul, Finset.sum_neg_distrib]

lemma frob_sub_left {n m : ℕ} (A B C : Matrix (Fin n) (Fin m) α) :
    frob (A - B) C = frob A C - frob B C := by
  unfold frob
  simp [Matrix.sub_apply, sub_mul, Finset.sum_sub_distrib]

lemma frob_sub_right {n m : ℕ} (A B C : Matrix (Fin n) (Fin m) α) :
    frob A (B - C) = frob A B - frob A C := by
  rw [frob_comm, frob_sub_left, frob_comm B A, frob_comm C A]

lemma frob_sum_left {n m k : ℕ} (A : Fin k → Matrix (Fin n) (Fin m) α)
    (B : Matrix (Fin n) (Fin m) α) :
    frob (∑ t, A t) B = ∑ t, frob (A t) B := by
  unfold frob
  simp only [Matrix.sum_apply, Finset.sum_mul]
  have h : ∀ i, (∑ j, ∑ t, A t i j * B i j) = ∑ t, ∑ j, A t i j * B i j :=
    fun i => Finset.sum_comm
  simp_rw [h]
  exact Finset.sum_comm

lemma frobSq_nonneg {n m : ℕ} (A : Matrix (Fin n) (Fin m) α) : 0 ≤ frobSq A := by
  unfold frobSq frob
  exact Finset.sum_nonneg fun _ _ => Finset.sum_nonneg fun _ _ => mul_self_nonneg _

lemma frobSq_eq_zero_iff {n m : ℕ} (A : Matrix (Fin n) (Fin m) α) :
    frobSq A = 0 ↔ A = 0 := by
  unfold frobSq frob
  constructor
  · intro h
    ext i j
    have h1 := (Finset.sum_eq_zero_iff_of_nonneg
      (fun i _ => Finset.sum_nonneg fun j _ => mul_self_nonneg (A i j))).mp h i
      (Finset.mem_univ i)
    have h2 := (Finset.sum_eq_zero_iff_of_nonneg
      (fun j _ => mul_self_nonneg (A i j))).mp h1 j (Finset.mem_univ j)
    simpa using mul_self_eq_zero.mp h2
  · intro h
    simp [h]

/-! ### Soft thresholding (`shrink`, claim C8)

`shrink(x, mu) = np.multiply(np.sign(x), np.maximum(np.abs(x) - mu, 0))`,
elementwise over the coefficient matrix. -/

/-- numpy `sign`: 1 for positive, -1 for negative, 0 for zero. -/
def sgn (x : α) : α := if 0 < x then 1 else if x < 0 then -1 else 0

/-- Soft thresholding function `shrink` of the source. -/
def shrink {n m : ℕ} (x : Matrix (Fin n) (Fin m) α) (mu : α) :
    Matrix (Fin n) (Fin m) α :=
  Matrix.of fun i j => sgn (x i j) * max (|x i j| - mu) 0

lemma sgn_mul_abs (x : α) : sgn x * |x| = x := by
  unfold sgn
  rcases lt_trichotomy 0 x with h | h | h
  · rw [if_pos h, abs_of_pos h, one_mul]
  · simp [← h]
  · rw [if_neg (not_lt.mpr h.le), if_pos h, abs_of_neg h]
    ring

lemma shrink_zero {n m : ℕ} (x : Matrix (Fin n) (Fin m) α) : shrink x 0 = x := by
  ext i j
  unfold shrink
  simp only [Matrix.of_apply, sub_zero, max_eq_left (abs_nonneg (x i j))]
  exact sgn_mul_abs (x i j)

/-- Claim C8: `shrink(x, 0) == x`; for `mu ≥ 0` every entry of `shrink(x, mu)`
is no larger in absolute value than the matching entry of `x`; and
`shrink(shrink(x, mu), 0) == shrink(x, mu)`. -/
theorem shrink_props {n m : ℕ} (x : Matrix (Fin n) (Fin m) α) (mu : α)
    (hmu : 0 ≤ mu) :
    shrink x 0 = x ∧
    (∀ i j, |shrink x mu i j| ≤ |x i j|) ∧
    shrink (shrink x mu) 0 = shrink x mu := by
  refine ⟨shrink_zero x, fun i j => ?_, shrink_zero _⟩
  unfold shrink sgn
  simp only [Matrix.of_apply]
  rcases lt_trichotomy 0 (x i j) with h | h | h
  · rw [if_pos h, one_mul, abs_of_nonneg (le_max_right _ _)]
    exact max_le (sub_le_self _ hmu) (abs_nonneg _)
  · simp [← h]
  · rw [if_neg (not_lt.mpr h.le), if_pos h, neg_one_mul, abs_neg,
      abs_of_nonneg (le_max_right _ _)]
    exact max_le (sub_le_self _ hmu) (abs_nonneg _)

/-- Witness for C8 at a concrete input. -/
theorem shrink_props_witness :
    (0 : ℚ) ≤ 1 ∧
    (shrink (Matrix.of ![![(3 : ℚ), -2]]) 0 = Matrix.of ![![(3 : ℚ), -2]] ∧
     (∀ i j, |shrink (Matrix.of ![![(3 : ℚ), -2]]) 1 i j| ≤
        |Matrix.of ![![(3 : ℚ), -2]] i j|) ∧
     shrink (shrink (Matrix.of ![![(3 : ℚ), -2]]) 1) 0 =
       shrink (Matrix.of ![![(3 : ℚ), -2]]) 1) :=
  ⟨by norm_num, shrink_props (Matrix.of ![![(3 : ℚ), -2]]) 1 (by norm_num)⟩

/-! ### Orientation-dim dispatch in `DstRF._solve` (claim C4)

The per-source covariance update dispatches on `dc`:

    if dc == 1: gamma[i] = sqrt(np.dot(x, x.T)) / np.real(sqrt(z))
    elif dc == 3: ... _compute_gamma_i ...
    else: NotImplementedError('%i x %i matrices are not implemented yet.')

In the `else` branch the `NotImplementedError` object is constructed but never
raised (the `raise` keyword is missing), so execution falls through and
`gamma[i]` silently keeps its previous value.  `Except.error` would model a
raised exception; the code never produces it. -/

/-- The `dc` dispatch of the per-source update in `DstRF._solve`, lines
542-552.  `g1` is the value the `dc == 1` branch would assign, `g3` the value
the `dc == 3` branch would assign, and `gold` the previous `gamma[i]`.  The
final branch mirrors the source exactly: the exception is built but not
raised, so the old block is returned as a normal result. -/
def tiDispatch {γ : Type*} (dc : ℕ) (g1 g3 gold : γ) : Except Unit γ :=
  if dc = 1 then Except.ok g1
  else if dc = 3 then Except.ok g3
  else Except.ok gold

/-- Claim C4 evaluated at the failing input `dc = 2`: the dispatch returns
normally with the old `gamma[i]` instead of raising, contradicting the claim
that any `dc` other than 1 and 3 fails fast. -/
theorem ti_dispatch_dc2_keeps_gamma :
    tiDispatch 2 (Matrix.of ![![(5 : ℚ)]]) (Matrix.of ![![(7 : ℚ)]])
        (Matrix.of ![![(9 : ℚ)]]) =
      Except.ok (Matrix.of ![![(9 : ℚ)]]) := rfl

/-! ### `REG_Data.load` (claim C5)

Trial data are modelled as lists: a sensor recording is a list of channels,
each a list of time samples; a (single) stimulus is a list of time samples.
Trial keys are natural numbers; the `meg` / `covariates` dicts are
association lists where assignment prepends after removing any old binding.
`sq` is the `math.sqrt` oracle applied to a sample count.  The Gabor `basis`
matrix is built from `np.exp` at container construction; it enters `load`
only through a matrix product, so it is carried as data in the container. -/

/-- Row-times-column dot product on lists. -/
def ldot (r c : List α) : α := (List.zipWith (· * ·) r c).sum

/-- Matrix product on list-of-rows matrices, `np.dot`. -/
def lmatmul (A B : List (List α)) : List (List α) :=
  A.map fun r => B.transpose.map fun c => ldot r c

/-- `covariate_from_stim(stim, M)` for one predictor: slide a length-`M`
window over the stimulus and reverse each window (`np.flipud`); the
`while i + M <= length` loop yields `length + 1 - M` windows. -/
def covariateFromStim (stim : List α) (M : ℕ) : List (List α) :=
  (List.range (stim.length + 1 - M)).map fun i => ((stim.drop i).take M).reverse

/-- The `REG_Data` container, list-shaped as in `load`. -/
structure RegData (α : Type*) where
  filter_length : ℕ
  basis : List (List α)
  datakeys : List ℕ
  meg : List (ℕ × List (List α))
  covariates : List (ℕ × List (List α))
  tstep : Option α
  norm_factor : Option α

/-- `REG_Data.load(key, meg, stim)` (single predictor variable, the
`normalize_regresor=False` path).  Mirrors the source line by line: the key
is appended to `datakeys` unconditionally — the source comment reads "check
if time lengths are same or not / skip for now", and there is no
duplicate-key check — the sensor series is truncated by `filter_length - 1`
leading samples (`basis.shape[0] == filter_length`) and divided by
`sqrt(time_samples)`, and the covariate matrix is the basis-projected lag
embedding with the same normalization.  `ts` is `meg.time.tstep`. -/
def load (sq : ℕ → α) (rd : RegData α) (key : ℕ) (meg : List (List α))
    (stim : List α) (ts : α) : RegData α :=
  let y := meg.map fun ch => ch.drop (rd.filter_length - 1)
  let tlen := (y.headD []).length
  let ymeg := y.map fun ch => ch.map (· / sq tlen)
  let cov := (lmatmul (covariateFromStim stim rd.filter_length) rd.basis).map
    fun r => r.map (· / sq tlen)
  { rd with
    datakeys := rd.datakeys ++ [key]
    tstep := some (rd.tstep.getD ts)
    norm_factor := some (rd.norm_factor.getD (sq tlen))
    meg := (key, ymeg) :: rd.meg.filter fun p => p.1 ≠ key
    covariates := (key, cov) :: rd.covariates.filter fun p => p.1 ≠ key }

/-- Counterexample to claim C5: loading a key that is already present
succeeds and silently stores the data (the key is even duplicated in
`datakeys`), instead of failing.  Here the container already holds key 0
with sensor value 1, and the new load with key 0, a one-channel one-sample
recording `[[2]]` and stimulus `[3]`, is stored without any error. -/
theorem load_duplicate_key_is_silently_stored :
    (load (fun _ => 1)
        ⟨1, [[(1 : ℚ)]], [0], [(0, [[1]])], [(0, [[1]])], some 1, some 1⟩
        0 [[2]] [3] 1).datakeys = [0, 0] ∧
    (load (fun _ => 1)
        ⟨1, [[(1 : ℚ)]], [0], [(0, [[1]])], [(0, [[1]])], some 1, some 1⟩
        0 [[2]] [3] 1).meg = [(0, [[2]])] := by
  refine ⟨rfl, ?_⟩
  simp [load]

/-- Claim C5 amended: `load` performs no validation at all.  For every
container, key and data, it returns normally, appends the key to `datakeys`
unconditionally (so a duplicate key is recorded twice), and stores the
processed data under the key, overwriting any previous binding.  Mismatched
stimulus/sensor time lengths are likewise stored without complaint. -/
theorem load_always_stores {α : Type*} [LinearOrderedField α] (sq : ℕ → α)
    (rd : RegData α) (key : ℕ) (meg : List (List α)) (stim : List α) (ts : α) :
    (load sq rd key meg stim ts).datakeys = rd.datakeys ++ [key] ∧
    (load sq rd key meg stim ts).meg.lookup key =
      some ((meg.map fun ch => ch.drop (rd.filter_length - 1)).map fun ch =>
        ch.map (· / sq ((meg.map fun ch =>
          ch.drop (rd.filter_length - 1)).headD []).length)) ∧
    (load sq rd key meg stim ts).covariates.lookup key =
      some ((lmatmul (covariateFromStim stim rd.filter_length) rd.basis).map
        fun r => r.map (· / sq ((meg.map fun ch =>
          ch.drop (rd.filter_length - 1)).headD []).length)) := by
  refine ⟨rfl, ?_, ?_⟩ <;> simp [load, List.lookup]

/-! ### `DstRF.__init__` / `__init__vars` (claim C6)

The constructor rescales the lead field by `linalg.norm(lead_field, 2)` and
then Cholesky-factors the noise covariance.  The spectral norm and the
Cholesky call are LAPACK oracles: `s` is the value returned by
`linalg.norm(G, 2)`; `cholRes` is the outcome of `linalg.cholesky` (scipy
raises `LinAlgError` exactly when the matrix is not positive definite, which
an `Except.error` models); `wfInv` is the inverse of the returned factor, so
that `linalg.solve(wf, A) = wfInv * A`.

numpy's elementwise division of the lead field by a zero spectral norm emits
a RuntimeWarning and produces non-finite values; it does not raise, so
construction completes.  In the exact-field model `s⁻¹` with `s = 0` is `0`;
either way no error path is taken, which is all the claim's failure clause
depends on. -/

/-- Result state of `DstRF.__init__` + `__init__vars`. -/
structure InitModel (Kc N : ℕ) (α : Type*) where
  lead_field : Matrix (Fin Kc) (Fin N) α
  lead_field_scaling : α
  noise_covariance : Matrix (Fin Kc) (Fin Kc) α
  eta : α
  init_sigma_b : Matrix (Fin Kc) (Fin Kc) α

/-- `DstRF.__init__` followed by `__init__vars`, with the LAPACK calls as
oracle inputs.  There is no check on `s` before the division. -/
def dstrfInit {Kc N : ℕ} (G : Matrix (Fin Kc) (Fin N) α)
    (noise : Matrix (Fin Kc) (Fin Kc) α) (s : α)
    (cholRes : Except Unit (Matrix (Fin Kc) (Fin Kc) α))
    (wfInv : Matrix (Fin Kc) (Fin Kc) α) : Except Unit (InitModel Kc N α) :=
  let Gs := s⁻¹ • G
  match cholRes with
  | Except.error e => Except.error e
  | Except.ok _wf =>
    let Gtilde := wfInv * Gs
    let eta := (Kc : α) / Matrix.trace (Gtilde * Gtildeᵀ)
    Except.ok ⟨Gs, s, noise, eta, noise + eta • (Gs * Gsᵀ)⟩

/-- Boolean success test on an `Except` result (a raised exception is the
`Except.error` case). -/
def isOkE {ε γ : Type*} : Except ε γ → Bool
  | Except.ok _ => true
  | Except.error _ => false

/-- Counterexample to claim C6: with the zero lead field — whose spectral
norm `linalg.norm(G, 2)` is 0 — and an identity noise covariance (positive
definite, so the Cholesky oracle succeeds with factor 1), construction
returns normally; it does not fail.  numpy's division by zero only warns. -/
theorem dstrf_init_zero_lead_field_succeeds :
    isOkE (dstrfInit (0 : Matrix (Fin 2) (Fin 2) ℚ) 1 0 (Except.ok 1) 1)
      = true := rfl

/-- Claim C6 amended: the lead field is divided by its spectral norm `s`,
`eta = channels / trace(Gtilde * Gtildeᵀ)` with `Gtilde` the whitened scaled
lead field, the initial data covariance is
`noise + eta • (G_scaled * G_scaledᵀ)`, and construction fails exactly when
the Cholesky of the noise covariance fails (noise not positive definite);
a zero-norm lead field is NOT detected and never causes a failure. -/
theorem dstrf_init_formulas {Kc N : ℕ} (G : Matrix (Fin Kc) (Fin N) α)
    (noise : Matrix (Fin Kc) (Fin Kc) α) (s : α) (e : Unit)
    (wf wfInv : Matrix (Fin Kc) (Fin Kc) α) :
    dstrfInit G noise s (Except.error e) wfInv = Except.error e ∧
    dstrfInit G noise s (Except.ok wf) wfInv =
      Except.ok ⟨s⁻¹ • G, s, noise,
        (Kc : α) / Matrix.trace ((wfInv * (s⁻¹ • G)) * (wfInv * (s⁻¹ • G))ᵀ),
        noise + ((Kc : α) / Matrix.trace ((wfInv * (s⁻¹ • G)) *
          (wfInv * (s⁻¹ • G))ᵀ)) • ((s⁻¹ • G) * (s⁻¹ • G)ᵀ)⟩ ∧
    isOkE (dstrfInit (0 : Matrix (Fin Kc) (Fin N) α) noise 0
      (Except.ok wf) wfInv) = true :=
  ⟨rfl, rfl, rfl⟩

/-! ### `REG_Data.timeslice` (claim C7)

A container after loading, with all trials sharing the time length `T`:
`meg[key]` is channels x `T`, `covariates[key]` is `T` x features, and
`_norm_factor` was set from the first trial, so for a uniform container it
equals `sqrt(T)`.  `timeslice(idx)` fancy-indexes columns of `meg` and rows
of `covariates` and rescales both by `_norm_factor / sqrt(len(idx))`; the
new container's `_norm_factor` is `sqrt(len(idx))`.  `sq` is the
`math.sqrt` oracle on sample counts. -/

/-- Uniform-time-length view of a loaded `REG_Data` container. -/
structure RegDataU (C T F : ℕ) (α : Type*) where
  datakeys : List ℕ
  meg : ℕ → Matrix (Fin C) (Fin T) α
  covariates : ℕ → Matrix (Fin T) (Fin F) α
  norm_factor : α

/-- `REG_Data.timeslice(idx)`: `idx` is the list of selected time indices,
given as a function `Fin m → Fin T` (numpy fancy indexing with
`len(idx) = m`). -/
def timeslice {C T F : ℕ} (rd : RegDataU C T F α) (sq : ℕ → α) {m : ℕ}
    (idx : Fin m → Fin T) : RegDataU C m F α :=
  { datakeys := rd.datakeys
    norm_factor := sq m
    meg := fun k => Matrix.of fun c j => rd.meg k c (idx j) * rd.norm_factor / sq m
    covariates := fun k =>
      Matrix.of fun j f => rd.covariates k (idx j) f * rd.norm_factor / sq m }

/-- Claim C7: on a container whose trials share the time length `T` (so its
`_norm_factor` is `sqrt(T)`), `timeslice` over the full index range
`idx = arange(T)` multiplies by `sqrt(T)/sqrt(T) = 1` and reproduces the
sensor and covariate data exactly. -/
theorem timeslice_full_range_id {C T F : ℕ} (rd : RegDataU C T F α)
    (sq : ℕ → α) (hnf : rd.norm_factor = sq T) (hsq : sq T ≠ 0) :
    rd.norm_factor / sq T = 1 ∧
    (timeslice rd sq (fun j : Fin T => j)).meg = rd.meg ∧
    (timeslice rd sq (fun j : Fin T => j)).covariates = rd.covariates := by
  refine ⟨by rw [hnf]; exact div_self hsq, ?_, ?_⟩
  · funext k
    ext c j
    simp [timeslice, hnf, mul_div_assoc, div_self hsq]
  · funext k
    ext j f
    simp [timeslice, hnf, mul_div_assoc, div_self hsq]

/-- Witness for C7 at a concrete container. -/
theorem timeslice_full_range_id_witness :
    ((⟨[0], fun _ => Matrix.of ![![(4 : ℚ)]], fun _ => Matrix.of ![![(6 : ℚ)]],
        1⟩ : RegDataU 1 1 1 ℚ).norm_factor = (fun _ => (1 : ℚ)) 1 ∧
     (fun _ => (1 : ℚ)) 1 ≠ 0) ∧
    ((⟨[0], fun _ => Matrix.of ![![(4 : ℚ)]], fun _ => Matrix.of ![![(6 : ℚ)]],
        1⟩ : RegDataU 1 1 1 ℚ).norm_factor / (fun _ => (1 : ℚ)) 1 = 1 ∧
     (timeslice (⟨[0], fun _ => Matrix.of ![![(4 : ℚ)]],
        fun _ => Matrix.of ![![(6 : ℚ)]], 1⟩ : RegDataU 1 1 1 ℚ)
        (fun _ => (1 : ℚ)) (fun j : Fin 1 => j)).meg =
       (⟨[0], fun _ => Matrix.of ![![(4 : ℚ)]], fun _ => Matrix.of ![![(6 : ℚ)]],
        1⟩ : RegDataU 1 1 1 ℚ).meg ∧
     (timeslice (⟨[0], fun _ => Matrix.of ![![(4 : ℚ)]],
        fun _ => Matrix.of ![![(6 : ℚ)]], 1⟩ : RegDataU 1 1 1 ℚ)
        (fun _ => (1 : ℚ)) (fun j : Fin 1 => j)).covariates =
       (⟨[0], fun _ => Matrix.of ![![(4 : ℚ)]], fun _ => Matrix.of ![![(6 : ℚ)]],
        1⟩ : RegDataU 1 1 1 ℚ).covariates) :=
  ⟨⟨rfl, by norm_num⟩,
   timeslice_full_range_id
     (⟨[0], fun _ => Matrix.of ![![(4 : ℚ)]], fun _ => Matrix.of ![![(6 : ℚ)]],
       1⟩ : RegDataU 1 1 1 ℚ) (fun _ => (1 : ℚ)) rfl (by norm_num)⟩

/-! ### `DstRF.compute_ES_metric` (claim C9)

A fitted model contributes the concatenation over trials of its flattened
fitted signal `lead_field · theta · covariatesᵀ`.  Sums over the
concatenated flat vector are sums over trials of entrywise matrix sums, so
the metric is computed directly on the per-trial fitted matrices.  `nm + 1`
models (the collection is non-empty) share the `tr` per-trial covariate
matrices of one data container.  The final `VarY / (Y_bar ** 2).sum()` is
an IEEE division: when the denominator is 0 it produces NaN (`VarY = 0`) or
inf (`VarY > 0`), not a real number — modelled as `none`. -/

/-- One fitted model: its (scaled) lead field and learned coefficients. -/
structure FittedModel (Kc N F : ℕ) (α : Type*) where
  lead_field : Matrix (Fin Kc) (Fin N) α
  theta : Matrix (Fin N) (Fin F) α

/-- Per-trial fitted signal `np.dot(np.dot(model.lead_field, model.theta),
data.covariates[key].T)`. -/
def fittedSignal {Kc N F T : ℕ} (mo : FittedModel Kc N F α)
    (E : Matrix (Fin T) (Fin F) α) : Matrix (Fin Kc) (Fin T) α :=
  mo.lead_field * mo.theta * Eᵀ

/-- `Y_bar = Y.mean(axis=0)`, per trial. -/
def esYbar {Kc N F T tr nm : ℕ} (models : Fin (nm + 1) → FittedModel Kc N F α)
    (covs : Fin tr → Matrix (Fin T) (Fin F) α) (t : Fin tr) :
    Matrix (Fin Kc) (Fin T) α :=
  ((nm + 1 : ℕ) : α)⁻¹ • ∑ j, fittedSignal (models j) (covs t)

/-- `VarY = (((Y - Y_bar) ** 2).sum(axis=1)).mean()`. -/
def esVar {Kc N F T tr nm : ℕ} (models : Fin (nm + 1) → FittedModel Kc N F α)
    (covs : Fin tr → Matrix (Fin T) (Fin F) α) : α :=
  (∑ j, ∑ t, frobSq (fittedSignal (models j) (covs t) - esYbar models covs t)) /
    ((nm + 1 : ℕ) : α)

/-- `(Y_bar ** 2).sum()`. -/
def esDen {Kc N F T tr nm : ℕ} (models : Fin (nm + 1) → FittedModel Kc N F α)
    (covs : Fin tr → Matrix (Fin T) (Fin F) α) : α :=
  ∑ t, frobSq (esYbar models covs t)

/-- `compute_ES_metric(models, data)`; `none` models the non-finite IEEE
result of dividing by a zero denominator. -/
def computeESMetric {Kc N F T tr nm : ℕ}
    (models : Fin (nm + 1) → FittedModel Kc N F α)
    (covs : Fin tr → Matrix (Fin T) (Fin F) α) : Option α :=
  if esDen models covs = 0 then none
  else some (esVar models covs / esDen models covs)

/-- Counterexample to claim C9: two models over the same data with identical
fitted signals — both have `theta = 0`, so every fitted signal is the zero
matrix — yet the metric is not 0: the code computes `0 / 0`, which is NaN
(modelled `none`), because the mean fitted signal has zero energy. -/
theorem es_metric_identical_zero_signals_not_zero :
    computeESMetric
        (fun _ : Fin 2 => (⟨Matrix.of ![![(1 : ℚ)]], Matrix.of ![![(0 : ℚ)]]⟩ :
          FittedModel 1 1 1 ℚ))
        (fun _ : Fin 1 => Matrix.of ![![(1 : ℚ)]]) = none ∧
    (∀ j j' : Fin 2,
      fittedSignal (α := ℚ)
        (⟨Matrix.of ![![(1 : ℚ)]], Matrix.of ![![(0 : ℚ)]]⟩ : FittedModel 1 1 1 ℚ)
        (Matrix.of ![![(1 : ℚ)]]) =
      fittedSignal (α := ℚ)
        (⟨Matrix.of ![![(1 : ℚ)]], Matrix.of ![![(0 : ℚ)]]⟩ : FittedModel 1 1 1 ℚ)
        (Matrix.of ![![(1 : ℚ)]])) := by
  refine ⟨?_, fun _ _ => rfl⟩
  have hz : ∀ t : Fin 1, esYbar
      (fun _ : Fin 2 => (⟨Matrix.of ![![(1 : ℚ)]], Matrix.of ![![(0 : ℚ)]]⟩ :
        FittedModel 1 1 1 ℚ))
      (fun _ : Fin 1 => Matrix.of ![![(1 : ℚ)]]) t = 0 := by
    intro t
    unfold esYbar fittedSignal
    ext c j
    simp [Matrix.mul_apply]
  unfold computeESMetric
  rw [if_pos]
  unfold esDen
  simp only [hz]
  simp [frobSq, frob]

/-- Claim C9 amended: provided the mean fitted signal has nonzero energy
(`(Y_bar ** 2).sum() ≠ 0`), the metric is 0 when all models produce
identical fitted signals and strictly positive when any two differ; when
that energy is zero the division produces a non-finite IEEE value (NaN or
inf), not a real number. -/
theorem es_metric_amended {Kc N F T tr nm : ℕ}
    (models : Fin (nm + 1) → FittedModel Kc N F α)
    (covs : Fin tr → Matrix (Fin T) (Fin F) α)
    (hden : esDen models covs ≠ 0) :
    ((∀ j j' t, fittedSignal (models j) (covs t) =
        fittedSignal (models j') (covs t)) →
      computeESMetric models covs = some 0) ∧
    ((∃ j j' t, fittedSignal (models j) (covs t) ≠
        fittedSignal (models j') (covs t)) →
      ∃ v, computeESMetric models covs = some v ∧ 0 < v) := by
  have hnm : ((nm + 1 : ℕ) : α) ≠ 0 := Nat.cast_ne_zero.mpr (Nat.succ_ne_zero nm)
  constructor
  · intro hsame
    have hbar : ∀ j t, esYbar models covs t = fittedSignal (models j) (covs t) := by
      intro j t
      unfold esYbar
      have : ∀ j' ∈ Finset.univ, fittedSignal (models j') (covs t) =
          fittedSignal (models j) (covs t) := fun j' _ => hsame j' j t
      rw [Finset.sum_congr rfl this, Finset.sum_const, Finset.card_univ,
        Fintype.card_fin, ← Nat.cast_smul_eq_nsmul α, inv_smul_smul₀ hnm]
    have hvar : esVar models covs = 0 := by
      unfold esVar
      rw [div_eq_zero_iff]
      left
      refine Finset.sum_eq_zero fun j _ => Finset.sum_eq_zero fun t _ => ?_
      rw [hbar j t, sub_self]
      exact (frobSq_eq_zero_iff _).mpr rfl
    unfold computeESMetric
    rw [if_neg hden, hvar, zero_div]
  · intro hdiff
    have hvpos : 0 < esVar models covs := by
      unfold esVar
      have hnum0 : 0 ≤ ∑ j, ∑ t,
          frobSq (fittedSignal (models j) (covs t) - esYbar models covs t) :=
        Finset.sum_nonneg fun j _ => Finset.sum_nonneg fun t _ => frobSq_nonneg _
      have hnumne : (∑ j, ∑ t,
          frobSq (fittedSignal (models j) (covs t) - esYbar models covs t)) ≠ 0 := by
        intro hz
        have hall : ∀ j t, fittedSignal (models j) (covs t) = esYbar models covs t := by
          intro j t
          have h1 := (Finset.sum_eq_zero_iff_of_nonneg
            (fun j _ => Finset.sum_nonneg fun t _ => frobSq_nonneg _)).mp hz j
            (Finset.mem_univ j)
          have h2 := (Finset.sum_eq_zero_iff_of_nonneg
            (fun t _ => frobSq_nonneg _)).mp h1 t (Finset.mem_univ t)
          have := (frobSq_eq_zero_iff _).mp h2
          exact sub_eq_zero.mp this
        obtain ⟨j, j', t, hne⟩ := hdiff
        exact hne ((hall j t).trans (hall j' t).symm)
      exact div_pos (lt_of_le_of_ne hnum0 (Ne.symm hnumne))
        (lt_of_le_of_ne (Nat.cast_nonneg _) (Ne.symm hnm))
    have hdpos : 0 < esDen models covs :=
      lt_of_le_of_ne (Finset.sum_nonneg fun t _ => frobSq_nonneg _) (Ne.symm hden)
    refine ⟨esVar models covs / esDen models covs, ?_, div_pos hvpos hdpos⟩
    unfold computeESMetric
    rw [if_neg hden]

/-- Witness for the amended C9 at a concrete input (one model, nonzero
fitted signal, denominator 1). -/
theorem es_metric_amended_witness :
    (esDen (fun _ : Fin 1 => (⟨Matrix.of ![![(1 : ℚ)]], Matrix.of ![![(1 : ℚ)]]⟩ :
        FittedModel 1 1 1 ℚ)) (fun _ : Fin 1 => Matrix.of ![![(1 : ℚ)]]) ≠ 0) ∧
    (((∀ j j' t, fittedSignal (α := ℚ) ((fun _ : Fin 1 =>
          (⟨Matrix.of ![![(1 : ℚ)]], Matrix.of ![![(1 : ℚ)]]⟩ :
            FittedModel 1 1 1 ℚ)) j) ((fun _ : Fin 1 => Matrix.of ![![(1 : ℚ)]]) t) =
        fittedSignal ((fun _ : Fin 1 =>
          (⟨Matrix.of ![![(1 : ℚ)]], Matrix.of ![![(1 : ℚ)]]⟩ :
            FittedModel 1 1 1 ℚ)) j') ((fun _ : Fin 1 => Matrix.of ![![(1 : ℚ)]]) t)) →
      computeESMetric (fun _ : Fin 1 =>
          (⟨Matrix.of ![![(1 : ℚ)]], Matrix.of ![![(1 : ℚ)]]⟩ :
            FittedModel 1 1 1 ℚ)) (fun _ : Fin 1 => Matrix.of ![![(1 : ℚ)]]) =
        some 0) ∧
     ((∃ j j' t, fittedSignal (α := ℚ) ((fun _ : Fin 1 =>
          (⟨Matrix.of ![![(1 : ℚ)]], Matrix.of ![![(1 : ℚ)]]⟩ :
            FittedModel 1 1 1 ℚ)) j) ((fun _ : Fin 1 => Matrix.of ![![(1 : ℚ)]]) t) ≠
        fittedSignal ((fun _ : Fin 1 =>
          (⟨Matrix.of ![![(1 : ℚ)]], Matrix.of ![![(1 : ℚ)]]⟩ :
            FittedModel 1 1 1 ℚ)) j') ((fun _ : Fin 1 => Matrix.of ![![(1 : ℚ)]]) t)) →
      ∃ v, computeESMetric (fun _ : Fin 1 =>
          (⟨Matrix.of ![![(1 : ℚ)]], Matrix.of ![![(1 : ℚ)]]⟩ :
            FittedModel 1 1 1 ℚ)) (fun _ : Fin 1 => Matrix.of ![![(1 : ℚ)]]) =
        some v ∧ 0 < v)) := by
  have hden : esDen (fun _ : Fin 1 =>
      (⟨Matrix.of ![![(1 : ℚ)]], Matrix.of ![![(1 : ℚ)]]⟩ : FittedModel 1 1 1 ℚ))
      (fun _ : Fin 1 => Matrix.of ![![(1 : ℚ)]]) ≠ 0 := by
    unfold esDen esYbar fittedSignal frobSq frob
    simp [Matrix.mul_apply]
    norm_num [Matrix.vecHead]
  exact ⟨hden, es_metric_amended _ _ hden⟩

/-! ### `DstRF._residual` and the first outer iteration of `fit` (claim C10)

`_residual(theta0, theta1) = sqrt(((theta1 - theta0) ** 2).sum() /
(theta0 ** 2).sum())` is IEEE arithmetic: when the denominator is 0 the
quotient is `inf` (positive numerator) or `nan` (zero numerator), `sqrt`
maps `inf` to `inf` and `nan` to `nan`, and `err < tol` is `False` for both.
These exact, rounding-independent special values are modelled by
`FloatVal`; `sq` is the `math.sqrt` oracle for the finite case. -/

/-- A double that is a finite value, `+inf`, or NaN. -/
inductive FloatVal (α : Type*) where
  | fin : α → FloatVal α
  | inf : FloatVal α
  | nan : FloatVal α
deriving DecidableEq

/-- IEEE division `num / den` for a nonnegative numerator: `0/0 = nan`,
`pos/0 = inf`. -/
def fdiv (num den : α) : FloatVal α :=
  if den = 0 then (if num = 0 then FloatVal.nan else FloatVal.inf)
  else FloatVal.fin (num / den)

/-- IEEE `sqrt` through the special values (`sq` evaluates the finite case). -/
def fsqrt (sq : α → α) : FloatVal α → FloatVal α
  | FloatVal.fin x => FloatVal.fin (sq x)
  | FloatVal.inf => FloatVal.inf
  | FloatVal.nan => FloatVal.nan

/-- IEEE comparison `err < tol`: false whenever `err` is `inf` or NaN. -/
def fltB : FloatVal α → α → Bool
  | FloatVal.fin x, t => decide (x < t)
  | FloatVal.inf, _ => false
  | FloatVal.nan, _ => false

/-- `DstRF._residual(theta0, theta1)`. -/
def residualRel {N F : ℕ} (sq : α → α) (θ0 θ1 : Matrix (Fin N) (Fin F) α) :
    FloatVal α :=
  fsqrt sq (fdiv (frobSq (θ1 - θ0)) (frobSq θ0))

/-- Skeleton of the outer loop of `DstRF.fit`: starting from the current
`theta`, each of the up to `n_iter` iterations runs the FASTA solve
(`fasta i θ`, an oracle indexed by the iteration so that the evolving
`Sigma_b` state is absorbed into it), records the relative change, breaks
before the Champagne update when `err < tol`, and otherwise runs one
Champagne update and continues.  The result counts how many Champagne
updates (`self._solve` calls) were executed. -/
def champCount {N F : ℕ} (sq : α → α)
    (fasta : ℕ → Matrix (Fin N) (Fin F) α → Matrix (Fin N) (Fin F) α)
    (tol : α) : ℕ → ℕ → Matrix (Fin N) (Fin F) α → ℕ
  | 0, _, _ => 0
  | n + 1, i, θ =>
    let θn := fasta i θ
    if fltB (residualRel sq θ θn) tol then 0
    else 1 + champCount sq fasta tol n (i + 1) θn

/-- Claim C10: `fit` initializes `theta = 0` (`__init__iter`), so at the
first outer iteration `_residual` divides by `(0 ** 2).sum() = 0`: the
recorded relative change is `inf` when the new theta is nonzero and NaN when
it is zero, never a finite value below `tol`; hence the `err < tol` check is
false at the first iteration and, for every `n_iter ≥ 1`, the Champagne
update runs at least once. -/
theorem fit_first_check_never_stops {N F : ℕ} (sq : α → α)
    (fasta : ℕ → Matrix (Fin N) (Fin F) α → Matrix (Fin N) (Fin F) α)
    (tol : α) (n_iter : ℕ) (hn : 1 ≤ n_iter) :
    (∀ θ1 : Matrix (Fin N) (Fin F) α, θ1 ≠ 0 →
      residualRel sq (0 : Matrix (Fin N) (Fin F) α) θ1 = FloatVal.inf) ∧
    residualRel sq (0 : Matrix (Fin N) (Fin F) α) 0 = FloatVal.nan ∧
    (∀ θ1 : Matrix (Fin N) (Fin F) α,
      fltB (residualRel sq (0 : Matrix (Fin N) (Fin F) α) θ1) tol = false) ∧
    1 ≤ champCount sq fasta tol n_iter 0 (0 : Matrix (Fin N) (Fin F) α) := by
  have hden : frobSq (0 : Matrix (Fin N) (Fin F) α) = 0 :=
    (frobSq_eq_zero_iff _).mpr rfl
  have hres : ∀ θ1 : Matrix (Fin N) (Fin F) α,
      residualRel sq (0 : Matrix (Fin N) (Fin F) α) θ1 =
        if θ1 = 0 then FloatVal.nan else FloatVal.inf := by
    intro θ1
    unfold residualRel fdiv
    rw [hden, if_pos rfl, sub_zero]
    by_cases h1 : θ1 = 0
    · rw [if_pos ((frobSq_eq_zero_iff _).mpr h1), if_pos h1]
      rfl
    · rw [if_neg fun hc => h1 ((frobSq_eq_zero_iff _).mp hc), if_neg h1]
      rfl
  have hflt : ∀ θ1 : Matrix (Fin N) (Fin F) α,
      fltB (residualRel sq (0 : Matrix (Fin N) (Fin F) α) θ1) tol = false := by
    intro θ1
    rw [hres θ1]
    by_cases h1 : θ1 = 0
    · rw [if_pos h1]
      rfl
    · rw [if_neg h1]
      rfl
  refine ⟨fun θ1 h1 => by rw [hres θ1, if_neg h1], by rw [hres 0, if_pos rfl],
    hflt, ?_⟩
  obtain ⟨m, rfl⟩ := Nat.exists_eq_add_of_le' hn
  show 1 ≤ champCount sq fasta tol (m + 1) 0 0
  unfold champCount
  simp [hflt]

/-- Witness for C10 at a concrete input. -/
theorem fit_first_check_never_stops_witness :
    1 ≤ 1 ∧
    ((∀ θ1 : Matrix (Fin 1) (Fin 1) ℚ, θ1 ≠ 0 →
      residualRel id (0 : Matrix (Fin 1) (Fin 1) ℚ) θ1 = FloatVal.inf) ∧
     residualRel id (0 : Matrix (Fin 1) (Fin 1) ℚ) 0 = FloatVal.nan ∧
     (∀ θ1 : Matrix (Fin 1) (Fin 1) ℚ,
       fltB (residualRel id (0 : Matrix (Fin 1) (Fin 1) ℚ) θ1) 1 = false) ∧
     1 ≤ champCount id (fun _ θ => θ) 1 1 0 (0 : Matrix (Fin 1) (Fin 1) ℚ)) :=
  ⟨le_refl 1, fit_first_check_never_stops id (fun _ θ => θ) 1 1 (le_refl 1)⟩

/-! ### Champagne inner iterations in `DstRF._solve` (claim C3)

The lead field is handled through its per-source column blocks
`lead_field[:, i*dc:(i+1)*dc]`, written `Gb i`.  Per trial, the loop body
first computes `Lc = cholesky(Sigma_b)`, `lhat = solve(Lc, lead_field)` and
`ytilde = solve(Lc, yhat)` — three LAPACK calls that depend only on the
current `Sigma_b` (`yhat`, the Cholesky factor of the empirical residual
covariance, is fixed per trial before the loop); they are modelled by the
oracle `whitenO : Sigma_b ↦ (lhat blocks, ytilde)`.  The per-source
covariance update `Ti` (the `dc == 1` square-root formula or
`_compute_gamma_i` for `dc == 3`, claim C2) is the oracle
`tiO : (z, x) ↦ gamma`.  Everything else — the `x`/`z` formulas, the reset
of `Sigma_b` to the noise covariance, the per-source accumulation, and the
fixed iteration count — is concrete. -/

/-- Mutable per-trial state of the Champagne loop. -/
structure ChampState (Kc dc s : ℕ) (α : Type*) where
  gamma : Fin s → Matrix (Fin dc) (Fin dc) α
  sigma : Matrix (Fin Kc) (Fin Kc) α

/-- The `sigma_b` accumulation of one inner iteration: reset to the noise
covariance, then `sigma_b += Gb[i] * gamma[i] * Gb[i].T` once per source,
in source order. -/
def accumSigma {Kc dc s : ℕ} (Gb : Fin s → Matrix (Fin Kc) (Fin dc) α)
    (noise : Matrix (Fin Kc) (Fin Kc) α)
    (γ : Fin s → Matrix (Fin dc) (Fin dc) α) : Matrix (Fin Kc) (Fin Kc) α :=
  (List.finRange s).foldl (fun acc i => acc + Gb i * γ i * (Gb i)ᵀ) noise

/-- One Champagne inner iteration (the body of `for it in range(n_iterc)`):
whiten with the current `Sigma_b`, update every source block with
`x = gamma[i] @ (ytilde.T @ lhat_block_i).T` and
`z = lhat_block_i.T @ lhat_block_i`, and rebuild `Sigma_b` from the noise
covariance and the freshly updated blocks. -/
def innerIter {Kc dc s : ℕ} (Gb : Fin s → Matrix (Fin Kc) (Fin dc) α)
    (noise : Matrix (Fin Kc) (Fin Kc) α)
    (whitenO : Matrix (Fin Kc) (Fin Kc) α →
      (Fin s → Matrix (Fin Kc) (Fin dc) α) × Matrix (Fin Kc) (Fin Kc) α)
    (tiO : Matrix (Fin dc) (Fin dc) α → Matrix (Fin dc) (Fin Kc) α →
      Matrix (Fin dc) (Fin dc) α)
    (st : ChampState Kc dc s α) : ChampState Kc dc s α :=
  let lhat := (whitenO st.sigma).1
  let ytilde := (whitenO st.sigma).2
  let γn : Fin s → Matrix (Fin dc) (Fin dc) α := fun i =>
    tiO ((lhat i)ᵀ * lhat i) (st.gamma i * (ytildeᵀ * lhat i)ᵀ)
  { gamma := γn, sigma := accumSigma Gb noise γn }

/-- `for it in range(n)`: run `step` exactly `n` times, no early exit. -/
def champLoop {σ : Type*} (step : σ → σ) : ℕ → σ → σ
  | 0, st => st
  | n + 1, st => champLoop step n (step st)

/-- `DstRF._solve`: every trial's state is advanced by `n_iterc` inner
iterations; trials are independent, each with its own whitening oracle
(its `yhat` differs) and initial `Gamma`/`Sigma_b`. -/
def solveTrials {Kc dc s ntr : ℕ} (Gb : Fin s → Matrix (Fin Kc) (Fin dc) α)
    (noise : Matrix (Fin Kc) (Fin Kc) α)
    (whitenO : Fin ntr → Matrix (Fin Kc) (Fin Kc) α →
      (Fin s → Matrix (Fin Kc) (Fin dc) α) × Matrix (Fin Kc) (Fin Kc) α)
    (tiO : Fin ntr → Matrix (Fin dc) (Fin dc) α →
      Matrix (Fin dc) (Fin Kc) α → Matrix (Fin dc) (Fin dc) α)
    (n_iterc : ℕ) (init : Fin ntr → ChampState Kc dc s α) :
    Fin ntr → ChampState Kc dc s α :=
  fun t => champLoop (innerIter Gb noise (whitenO t) (tiO t)) n_iterc (init t)

lemma champLoop_eq_iterate {σ : Type*} (step : σ → σ) (n : ℕ) (st : σ) :
    champLoop step n st = step^[n] st := by
  induction n generalizing st with
  | zero => rfl
  | succ n ih =>
    rw [champLoop, ih, Function.iterate_succ_apply]

lemma accumSigma_eq_sum {Kc dc s : ℕ} (Gb : Fin s → Matrix (Fin Kc) (Fin dc) α)
    (noise : Matrix (Fin Kc) (Fin Kc) α)
    (γ : Fin s → Matrix (Fin dc) (Fin dc) α) :
    accumSigma Gb noise γ = noise + ∑ i, Gb i * γ i * (Gb i)ᵀ := by
  unfold accumSigma
  have h : ∀ (l : List (Fin s)) (a : Matrix (Fin Kc) (Fin Kc) α),
      l.foldl (fun acc i => acc + Gb i * γ i * (Gb i)ᵀ) a =
        a + (l.map fun i => Gb i * γ i * (Gb i)ᵀ).sum := by
    intro l
    induction l with
    | nil => intro a; simp
    | cons hd tl ih =>
      intro a
      rw [List.foldl_cons, ih, List.map_cons, List.sum_cons, add_assoc]
  rw [h, Fin.sum_univ_def]

/-- Claim C3: in `DstRF._solve`, for every trial and every inner iteration
`k + 1 ≤ n_iterc`, the data covariance at the end of that iteration equals
the noise covariance plus the sum over sources of
`Gb[i] * gamma[i] * Gb[i].T` with the blocks just updated in that iteration
(`Sigma_b` is reset to the noise covariance at the start of the source loop
and accumulated once per source); and the trial's loop is exactly `n_iterc`
applications of the iteration body, with no convergence check. -/
theorem solve_sigma_b_invariant {Kc dc s ntr : ℕ}
    (Gb : Fin s → Matrix (Fin Kc) (Fin dc) α)
    (noise : Matrix (Fin Kc) (Fin Kc) α)
    (whitenO : Fin ntr → Matrix (Fin Kc) (Fin Kc) α →
      (Fin s → Matrix (Fin Kc) (Fin dc) α) × Matrix (Fin Kc) (Fin Kc) α)
    (tiO : Fin ntr → Matrix (Fin dc) (Fin dc) α →
      Matrix (Fin dc) (Fin Kc) α → Matrix (Fin dc) (Fin dc) α)
    (n_iterc : ℕ) (init : Fin ntr → ChampState Kc dc s α)
    (t : Fin ntr) (k : ℕ) (hk : k < n_iterc) :
    ((innerIter Gb noise (whitenO t) (tiO t))^[k + 1] (init t)).sigma =
      noise + ∑ i, Gb i *
        ((innerIter Gb noise (whitenO t) (tiO t))^[k + 1] (init t)).gamma i *
        (Gb i)ᵀ ∧
    solveTrials Gb noise whitenO tiO n_iterc init t =
      (innerIter Gb noise (whitenO t) (tiO t))^[n_iterc] (init t) := by
  constructor
  · rw [Function.iterate_succ_apply']
    exact accumSigma_eq_sum Gb noise _
  · exact champLoop_eq_iterate _ _ _

/-- Witness for C3 at a concrete instantiation (one trial, one source,
`dc = 1`, `n_iterc = 1`, `k = 0`). -/
theorem solve_sigma_b_invariant_witness :
    (0 : ℕ) < 1 ∧
    (((innerIter (α := ℚ) (fun _ : Fin 1 => Matrix.of ![![(2 : ℚ)]])
        (Matrix.of ![![(1 : ℚ)]])
        ((fun _ : Fin 1 => fun _ => (fun _ : Fin 1 => Matrix.of ![![(1 : ℚ)]],
          Matrix.of ![![(1 : ℚ)]])) 0)
        ((fun _ : Fin 1 => fun z x => z + x * xᵀ) 0))^[0 + 1]
        ((fun _ : Fin 1 => (⟨fun _ => Matrix.of ![![(1 : ℚ)]],
          Matrix.of ![![(1 : ℚ)]]⟩ : ChampState 1 1 1 ℚ)) 0)).sigma =
      Matrix.of ![![(1 : ℚ)]] + ∑ i : Fin 1,
        (fun _ : Fin 1 => Matrix.of ![![(2 : ℚ)]]) i *
        ((innerIter (α := ℚ) (fun _ : Fin 1 => Matrix.of ![![(2 : ℚ)]])
          (Matrix.of ![![(1 : ℚ)]])
          ((fun _ : Fin 1 => fun _ => (fun _ : Fin 1 => Matrix.of ![![(1 : ℚ)]],
            Matrix.of ![![(1 : ℚ)]])) 0)
          ((fun _ : Fin 1 => fun z x => z + x * xᵀ) 0))^[0 + 1]
          ((fun _ : Fin 1 => (⟨fun _ => Matrix.of ![![(1 : ℚ)]],
            Matrix.of ![![(1 : ℚ)]]⟩ : ChampState 1 1 1 ℚ)) 0)).gamma i *
        ((fun _ : Fin 1 => Matrix.of ![![(2 : ℚ)]]) i)ᵀ ∧
     solveTrials (α := ℚ) (fun _ : Fin 1 => Matrix.of ![![(2 : ℚ)]])
        (Matrix.of ![![(1 : ℚ)]])
        (fun _ : Fin 1 => fun _ => (fun _ : Fin 1 => Matrix.of ![![(1 : ℚ)]],
          Matrix.of ![![(1 : ℚ)]]))
        (fun _ : Fin 1 => fun z x => z + x * xᵀ) 1
        (fun _ : Fin 1 => (⟨fun _ => Matrix.of ![![(1 : ℚ)]],
          Matrix.of ![![(1 : ℚ)]]⟩ : ChampState 1 1 1 ℚ)) 0 =
      (innerIter (α := ℚ) (fun _ : Fin 1 => Matrix.of ![![(2 : ℚ)]])
        (Matrix.of ![![(1 : ℚ)]])
        ((fun _ : Fin 1 => fun _ => (fun _ : Fin 1 => Matrix.of ![![(1 : ℚ)]],
          Matrix.of ![![(1 : ℚ)]])) 0)
        ((fun _ : Fin 1 => fun z x => z + x * xᵀ) 0))^[1]
        ((fun _ : Fin 1 => (⟨fun _ => Matrix.of ![![(1 : ℚ)]],
          Matrix.of ![![(1 : ℚ)]]⟩ : ChampState 1 1 1 ℚ)) 0)) :=
  ⟨Nat.zero_lt_one,
   solve_sigma_b_invariant (fun _ : Fin 1 => Matrix.of ![![(2 : ℚ)]])
     (Matrix.of ![![(1 : ℚ)]])
     (fun _ : Fin 1 => fun _ => (fun _ : Fin 1 => Matrix.of ![![(1 : ℚ)]],
       Matrix.of ![![(1 : ℚ)]]))
     (fun _ : Fin 1 => fun z x => z + x * xᵀ) 1
     (fun _ : Fin 1 => (⟨fun _ => Matrix.of ![![(1 : ℚ)]],
       Matrix.of ![![(1 : ℚ)]]⟩ : ChampState 1 1 1 ℚ)) 0 0 Nat.zero_lt_one⟩

/-! ### `_compute_gamma_i` (claim C2)

The two `linalg.eig` calls are eigendecomposition oracles: in exact
arithmetic, for the symmetric input `z` they return an orthogonal `v` and a
real vector `e` with `z = v · diag e · vᵀ` (similarly `u`, `d` for the inner
symmetric matrix), which are hypotheses of the theorem.  The two `np.sqrt`
calls on the clamped eigenvalue vectors are square-root oracles: `se` and
`sd` with `se i ≥ 0`, `se i ^ 2 = max (e i) 0` (the code clamps `e[e < 0] =
0` before taking the root), and likewise for `sd` over `d`.  After these
four oracle outputs the function is concrete matrix arithmetic, mirrored
below.  The claim is for 3x3 `z` (`dc = 3`) and 3-row `x`; the embedding
keeps the block size `n` generic and the witness instantiates `n = 3`. -/

/-- `_myinv`: zero-preserving elementwise reciprocal, `y[x > 0] = 1 / x[x > 0]`,
applied to the (clamped, square-rooted) eigenvalue vector. -/
def myinv {n : ℕ} (e : Fin n → α) : Fin n → α :=
  fun i => if 0 < e i then (e i)⁻¹ else 0

/-- `temp = np.dot(v * _myinv(e), u)` of `_compute_gamma_i` (with `se` the
code's clamped-and-square-rooted `e`). -/
def gammaTemp {n : ℕ} (v u : Matrix (Fin n) (Fin n) α) (se : Fin n → α) :
    Matrix (Fin n) (Fin n) α :=
  v * Matrix.diagonal (myinv se) * u

/-- The return value of `_compute_gamma_i`:
`np.dot(temp * d, temp.conj().T)` with `d` already square-rooted (`sd`). -/
def computeGammaI {n : ℕ} (v u : Matrix (Fin n) (Fin n) α) (se sd : Fin n → α) :
    Matrix (Fin n) (Fin n) α :=
  gammaTemp v u se * Matrix.diagonal sd * (gammaTemp v u se)ᵀ

/-- The symmetric matrix `(temp * e) * e[:, np.newaxis]` handed to the second
`linalg.eig`: `diag(se) · (vᵀ x xᵀ v) · diag(se)` where
`temp = real((x.T @ v).conj().T @ (x.T @ v)) = vᵀ x xᵀ v`. -/
def smat {n k : ℕ} (v : Matrix (Fin n) (Fin n) α) (se : Fin n → α)
    (x : Matrix (Fin n) (Fin k) α) : Matrix (Fin n) (Fin n) α :=
  Matrix.diagonal se * (vᵀ * (x * xᵀ) * v) * Matrix.diagonal se

/-- Real quadratic form `wᵀ A w`. -/
def quadForm {n : ℕ} (A : Matrix (Fin n) (Fin n) α) (w : Fin n → α) : α :=
  ∑ i, ∑ j, w i * A i j * w j

/-- Symmetric positive semi-definiteness over an ordered field. -/
def IsPSDm {n : ℕ} (A : Matrix (Fin n) (Fin n) α) : Prop :=
  Aᵀ = A ∧ ∀ w : Fin n → α, 0 ≤ quadForm A w

lemma quadForm_diag_congr {n : ℕ} (T : Matrix (Fin n) (Fin n) α)
    (d : Fin n → α) (w : Fin n → α) :
    quadForm (T * Matrix.diagonal d * Tᵀ) w =
      ∑ a, d a * ((∑ i, w i * T i a) * (∑ j, w j * T j a)) := by
  unfold quadForm
  have hentry : ∀ i j, (T * Matrix.diagonal d * Tᵀ) i j =
      ∑ a, T i a * d a * T j a := by
    intro i j
    rw [Matrix.mul_apply]
    refine Finset.sum_congr rfl fun a _ => ?_
    rw [Matrix.mul_diagonal, Matrix.transpose_apply]
  calc ∑ i, ∑ j, w i * (T * Matrix.diagonal d * Tᵀ) i j * w j
      = ∑ i, ∑ j, ∑ a, w i * (T i a * d a * T j a) * w j := by
        refine Finset.sum_congr rfl fun i _ => Finset.sum_congr rfl fun j _ => ?_
        rw [hentry i j, Finset.mul_sum, Finset.sum_mul]
    _ = ∑ a, ∑ i, ∑ j, w i * (T i a * d a * T j a) * w j := by
        have h1 : ∀ i : Fin n, (∑ j, ∑ a, w i * (T i a * d a * T j a) * w j) =
            ∑ a, ∑ j, w i * (T i a * d a * T j a) * w j :=
          fun i => Finset.sum_comm
        simp_rw [h1]
        exact Finset.sum_comm
    _ = ∑ a, d a * ((∑ i, w i * T i a) * (∑ j, w j * T j a)) := by
        refine Finset.sum_congr rfl fun a _ => ?_
        rw [Finset.sum_mul_sum, Finset.mul_sum]
        refine Finset.sum_congr rfl fun i _ => ?_
        rw [Finset.mul_sum]
        refine Finset.sum_congr rfl fun j _ => ?_
        ring

lemma sandwich_symm {n : ℕ} (T : Matrix (Fin n) (Fin n) α) (d : Fin n → α) :
    (T * Matrix.diagonal d * Tᵀ)ᵀ = T * Matrix.diagonal d * Tᵀ := by
  rw [Matrix.transpose_mul, Matrix.transpose_mul, Matrix.transpose_transpose,
    Matrix.diagonal_transpose, Matrix.mul_assoc]

/-- Claim C2: with exact eigendecompositions as hypotheses, the value of
`_compute_gamma_i(z, x)` is symmetric positive semi-definite for every valid
input, and when `z` is positive definite (all its eigenvalues positive) it
satisfies the defining equation `gamma · z · gamma = x · xᵀ`. -/
theorem compute_gamma_i_psd_and_geometric_mean {n k : ℕ}
    (z v u : Matrix (Fin n) (Fin n) α) (e d se sd : Fin n → α)
    (x : Matrix (Fin n) (Fin k) α)
    (hz : z = v * Matrix.diagonal e * vᵀ)
    (hv : vᵀ * v = 1)
    (hse0 : ∀ i, 0 ≤ se i) (hse2 : ∀ i, se i ^ 2 = max (e i) 0)
    (hS : smat v se x = u * Matrix.diagonal d * uᵀ)
    (hu : uᵀ * u = 1)
    (hsd0 : ∀ i, 0 ≤ sd i) (hsd2 : ∀ i, sd i ^ 2 = max (d i) 0) :
    IsPSDm (computeGammaI v u se sd) ∧
    ((∀ i, 0 < e i) →
      computeGammaI v u se sd * z * computeGammaI v u se sd = x * xᵀ) := by
  have hvv : v * vᵀ = 1 := Matrix.mul_eq_one_comm.mp hv
  have huu : u * uᵀ = 1 := Matrix.mul_eq_one_comm.mp hu
  -- every eigenvalue of the PSD matrix handed to the second eig is nonneg
  have hDiagd : Matrix.diagonal d = uᵀ * smat v se x * u := by
    rw [hS]
    have hstep : uᵀ * (u * Matrix.diagonal d * uᵀ) * u =
        uᵀ * u * Matrix.diagonal d * (uᵀ * u) := by
      simp [Matrix.mul_assoc]
    rw [hstep, hu, Matrix.one_mul, Matrix.mul_one]
  have hd0 : ∀ a, 0 ≤ d a := by
    intro a
    have hC : smat v se x =
        (Matrix.diagonal se * vᵀ * x) * (Matrix.diagonal se * vᵀ * x)ᵀ := by
      unfold smat
      simp only [Matrix.transpose_mul, Matrix.transpose_transpose,
        Matrix.diagonal_transpose, Matrix.mul_assoc]
    have hBtB : Matrix.diagonal d =
        ((Matrix.diagonal se * vᵀ * x)ᵀ * u)ᵀ *
          ((Matrix.diagonal se * vᵀ * x)ᵀ * u) := by
      rw [hDiagd, hC]
      simp only [Matrix.transpose_mul, Matrix.transpose_transpose,
        Matrix.mul_assoc]
    have ha := congrArg (fun M => M a a) hBtB
    simp only [Matrix.diagonal_apply_eq] at ha
    rw [ha, Matrix.mul_apply]
    exact Finset.sum_nonneg fun b _ => by
      rw [Matrix.transpose_apply]
      exact mul_self_nonneg _
  constructor
  · unfold computeGammaI
    constructor
    · exact sandwich_symm _ _
    · intro w
      rw [quadForm_diag_congr]
      exact Finset.sum_nonneg fun a _ =>
        mul_nonneg (hsd0 a) (mul_self_nonneg _)
  · intro he
    have hse2e : ∀ a, se a ^ 2 = e a := fun a => by
      rw [hse2 a, max_eq_left (he a).le]
    have hsepos : ∀ a, 0 < se a := by
      intro a
      rcases lt_or_eq_of_le (hse0 a) with h | h
      · exact h
      · exfalso
        have : e a = 0 := by rw [← hse2e a, ← h]; ring
        exact absurd this (ne_of_gt (he a))
    have hsene : ∀ a, se a ≠ 0 := fun a => (hsepos a).ne'
    have hmy : myinv se = fun a => (se a)⁻¹ := by
      funext a
      unfold myinv
      rw [if_pos (hsepos a)]
    have hd2 : ∀ a, sd a ^ 2 = d a := fun a => by
      rw [hsd2 a, max_eq_left (hd0 a)]
    -- cancellation rewrite rules used to collapse the big product
    have hVtV : ∀ {p : ℕ} (B : Matrix (Fin n) (Fin p) α), vᵀ * (v * B) = B := by
      intro p B
      rw [← Matrix.mul_assoc, hv, Matrix.one_mul]
    have hVVt : ∀ {p : ℕ} (B : Matrix (Fin n) (Fin p) α), v * (vᵀ * B) = B := by
      intro p B
      rw [← Matrix.mul_assoc, hvv, Matrix.one_mul]
    have hUtU : ∀ {p : ℕ} (B : Matrix (Fin n) (Fin p) α), uᵀ * (u * B) = B := by
      intro p B
      rw [← Matrix.mul_assoc, hu, Matrix.one_mul]
    have hDinvDse : ∀ {p : ℕ} (B : Matrix (Fin n) (Fin p) α),
        Matrix.diagonal (fun a => (se a)⁻¹) * (Matrix.diagonal se * B) = B := by
      intro p B
      rw [← Matrix.mul_assoc, Matrix.diagonal_mul_diagonal]
      have : (fun a => (se a)⁻¹ * se a) = fun _ => (1 : α) := by
        funext a
        exact inv_mul_cancel₀ (hsene a)
      rw [this, Matrix.diagonal_one, Matrix.one_mul]
    have hDseDinv : ∀ {p : ℕ} (B : Matrix (Fin n) (Fin p) α),
        Matrix.diagonal se * (Matrix.diagonal (fun a => (se a)⁻¹) * B) = B := by
      intro p B
      rw [← Matrix.mul_assoc, Matrix.diagonal_mul_diagonal]
      have : (fun a => se a * (se a)⁻¹) = fun _ => (1 : α) := by
        funext a
        exact mul_inv_cancel₀ (hsene a)
      rw [this, Matrix.diagonal_one, Matrix.one_mul]
    have hDinvDeDinv : ∀ {p : ℕ} (B : Matrix (Fin n) (Fin p) α),
        Matrix.diagonal (fun a => (se a)⁻¹) * (Matrix.diagonal e *
          (Matrix.diagonal (fun a => (se a)⁻¹) * B)) = B := by
      intro p B
      rw [← Matrix.mul_assoc, ← Matrix.mul_assoc, Matrix.diagonal_mul_diagonal,
        Matrix.diagonal_mul_diagonal]
      have : (fun a => (se a)⁻¹ * e a * (se a)⁻¹) = fun _ => (1 : α) := by
        funext a
        rw [← hse2e a]
        calc (se a)⁻¹ * se a ^ 2 * (se a)⁻¹
            = ((se a)⁻¹ * se a) * (se a * (se a)⁻¹) := by ring
          _ = 1 := by
              rw [inv_mul_cancel₀ (hsene a), mul_inv_cancel₀ (hsene a), one_mul]
      rw [this, Matrix.diagonal_one, Matrix.one_mul]
    have hDsdDsd : ∀ {p : ℕ} (B : Matrix (Fin n) (Fin p) α),
        Matrix.diagonal sd * (Matrix.diagonal sd * B) = Matrix.diagonal d * B := by
      intro p B
      rw [← Matrix.mul_assoc, Matrix.diagonal_mul_diagonal]
      have : (fun a => sd a * sd a) = d := by
        funext a
        rw [← hd2 a]
        ring
      rw [this]
    have hSB : ∀ {p : ℕ} (B : Matrix (Fin n) (Fin p) α),
        u * (Matrix.diagonal d * (uᵀ * B)) =
          Matrix.diagonal se * (vᵀ * (x * (xᵀ * (v *
            (Matrix.diagonal se * B))))) := by
      intro p B
      have h1 := congrArg (fun M => M * B) hS
      simp only [smat, Matrix.mul_assoc] at h1
      exact h1.symm
    unfold computeGammaI gammaTemp
    rw [hz, hmy]
    simp only [Matrix.transpose_mul, Matrix.transpose_transpose,
      Matrix.diagonal_transpose, Matrix.mul_assoc]
    simp only [hVtV, hUtU, hDinvDeDinv, hDsdDsd, hSB, hDinvDse, hDseDinv, hVVt,
      hvv, Matrix.mul_one]

/-- Witness for C2 at the identity instantiation (`n = k = 3`, `z = v = u =
x = 1`, all eigenvalue vectors 1). -/
theorem compute_gamma_i_witness :
    ((1 : Matrix (Fin 3) (Fin 3) ℚ) = 1 * Matrix.diagonal (fun _ => 1) * 1ᵀ ∧
     (1 : Matrix (Fin 3) (Fin 3) ℚ)ᵀ * 1 = 1 ∧
     (∀ i : Fin 3, (0 : ℚ) ≤ 1) ∧ (∀ i : Fin 3, (1 : ℚ) ^ 2 = max 1 0) ∧
     smat (1 : Matrix (Fin 3) (Fin 3) ℚ) (fun _ => 1)
        (1 : Matrix (Fin 3) (Fin 3) ℚ) = 1 * Matrix.diagonal (fun _ => 1) * 1ᵀ) ∧
    (IsPSDm (computeGammaI (1 : Matrix (Fin 3) (Fin 3) ℚ) 1
        (fun _ => 1) (fun _ => 1)) ∧
     ((∀ i : Fin 3, (0 : ℚ) < (fun _ => (1 : ℚ)) i) →
       computeGammaI (1 : Matrix (Fin 3) (Fin 3) ℚ) 1 (fun _ => 1) (fun _ => 1) *
         1 *
         computeGammaI (1 : Matrix (Fin 3) (Fin 3) ℚ) 1 (fun _ => 1)
           (fun _ => 1) =
       (1 : Matrix (Fin 3) (Fin 3) ℚ) * (1 : Matrix (Fin 3) (Fin 3) ℚ)ᵀ)) := by
  have hz : (1 : Matrix (Fin 3) (Fin 3) ℚ) =
      1 * Matrix.diagonal (fun _ => 1) * 1ᵀ := by
    simp [Matrix.diagonal_one]
  have hS : smat (1 : Matrix (Fin 3) (Fin 3) ℚ) (fun _ => 1)
      (1 : Matrix (Fin 3) (Fin 3) ℚ) = 1 * Matrix.diagonal (fun _ => 1) * 1ᵀ := by
    unfold smat
    simp [Matrix.diagonal_one]
  refine ⟨⟨hz, by simp, fun _ => by norm_num, fun _ => by norm_num, hS⟩, ?_⟩
  exact compute_gamma_i_psd_and_geometric_mean 1 1 1 (fun _ => 1) (fun _ => 1)
    (fun _ => 1) (fun _ => 1) 1 hz (by simp) (fun _ => by norm_num)
    (fun _ => by norm_num) hS (by simp) (fun _ => by norm_num)
    (fun _ => by norm_num)

/-! ### `DstRF._construct_f` versus the explicit residual (claim C1)

`REG_Data._precompute` caches `bbt = b bᵀ`, `bE = b E`, `EtE = Eᵀ E` per
trial (`b` the normalized sensor series, `E` the covariate matrix).
`_construct_f` whitens per trial with `L = cholesky(Sigma_b[key])`:
`leadfields = solve(L, lead_field)`, `bEs = solve(L, bE)`,
`bbts = trace(solve(L, solve(L, bbt).T))`.  A `solve(L, A)` result is
`L⁻¹ A`; the theorem quantifies over the per-trial inverse factor `Minv`
directly (any invertible whitener, in particular the inverse of the
Cholesky factor of `Sigma_b`), so the statement needs no invertibility side
condition.  Trials may have distinct time lengths `Tf t`.  The code builds
`grad_funct` as the first trial's gradient plus the remaining trials'; over
matrices this is the `Fin (ntr + 1)`-indexed sum used here (the trial list
is non-empty whenever `grad_funct` runs). -/

/-- `bbts` entry: `np.trace(linalg.solve(L, linalg.solve(L, bbt).T))` with
`bbt = np.dot(b, b.T)`. -/
def bbtWhite {Kc T : ℕ} (Minv : Matrix (Fin Kc) (Fin Kc) α)
    (b : Matrix (Fin Kc) (Fin T) α) : α :=
  Matrix.trace (Minv * (Minv * (b * bᵀ))ᵀ)

/-- `bEs` entry: `linalg.solve(L, bE)` with `bE = np.dot(b, E)`. -/
def bEWhite {Kc T F : ℕ} (Minv : Matrix (Fin Kc) (Fin Kc) α)
    (b : Matrix (Fin Kc) (Fin T) α) (E : Matrix (Fin T) (Fin F) α) :
    Matrix (Fin Kc) (Fin F) α :=
  Minv * (b * E)

/-- The inner function `f(L, x, bbt, bE, EtE)` of `_construct_f` (`L` is the
whitened lead field there). -/
def fTrial {Kc N F : ℕ} (L : Matrix (Fin Kc) (Fin N) α)
    (x : Matrix (Fin N) (Fin F) α) (bbt : α) (bE : Matrix (Fin Kc) (Fin F) α)
    (EtE : Matrix (Fin F) (Fin F) α) : α :=
  1 / 2 * (bbt - 2 * frob bE (L * x) + frob (L * x) (L * x * EtE))

/-- The inner function `gradf(L, x, bE, EtE)` of `_construct_f`. -/
def gradfTrial {Kc N F : ℕ} (L : Matrix (Fin Kc) (Fin N) α)
    (x : Matrix (Fin N) (Fin F) α) (bE : Matrix (Fin Kc) (Fin F) α)
    (EtE : Matrix (Fin F) (Fin F) α) : Matrix (Fin N) (Fin F) α :=
  -(Lᵀ * (bE - L * x * EtE))

/-- The whitened explicit residual `solve(L, b - lead_field @ theta @ E.T)`,
as `eval_obj` computes it per trial. -/
def residualW {Kc T N F : ℕ} (Minv : Matrix (Fin Kc) (Fin Kc) α)
    (G : Matrix (Fin Kc) (Fin N) α) (θ : Matrix (Fin N) (Fin F) α)
    (b : Matrix (Fin Kc) (Fin T) α) (E : Matrix (Fin T) (Fin F) α) :
    Matrix (Fin Kc) (Fin T) α :=
  Minv * (b - G * θ * Eᵀ)

/-- The closure `funct` returned by `_construct_f`: sum of `f` over trials,
on the whitened cached statistics. -/
def funct {ntr Kc N F : ℕ} (Tf : Fin (ntr + 1) → ℕ)
    (Minv : Fin (ntr + 1) → Matrix (Fin Kc) (Fin Kc) α)
    (b : ∀ t, Matrix (Fin Kc) (Fin (Tf t)) α)
    (E : ∀ t, Matrix (Fin (Tf t)) (Fin F) α)
    (G : Matrix (Fin Kc) (Fin N) α) (θ : Matrix (Fin N) (Fin F) α) : α :=
  ∑ t, fTrial (Minv t * G) θ (bbtWhite (Minv t) (b t))
    (bEWhite (Minv t) (b t) (E t)) ((E t)ᵀ * E t)

/-- The closure `grad_funct` returned by `_construct_f` (trial 0's gradient
plus the remaining trials', i.e. the sum over all trials). -/
def gradFunct {ntr Kc N F : ℕ} (Tf : Fin (ntr + 1) → ℕ)
    (Minv : Fin (ntr + 1) → Matrix (Fin Kc) (Fin Kc) α)
    (b : ∀ t, Matrix (Fin Kc) (Fin (Tf t)) α)
    (E : ∀ t, Matrix (Fin (Tf t)) (Fin F) α)
    (G : Matrix (Fin Kc) (Fin N) α) (θ : Matrix (Fin N) (Fin F) α) :
    Matrix (Fin N) (Fin F) α :=
  ∑ t, gradfTrial (Minv t * G) θ (bEWhite (Minv t) (b t) (E t)) ((E t)ᵀ * E t)

/-- The explicit per-timepoint objective: sum over trials of half the
squared Frobenius norm of the whitened residual. -/
def objExplicit {ntr Kc N F : ℕ} (Tf : Fin (ntr + 1) → ℕ)
    (Minv : Fin (ntr + 1) → Matrix (Fin Kc) (Fin Kc) α)
    (b : ∀ t, Matrix (Fin Kc) (Fin (Tf t)) α)
    (E : ∀ t, Matrix (Fin (Tf t)) (Fin F) α)
    (G : Matrix (Fin Kc) (Fin N) α) (θ : Matrix (Fin N) (Fin F) α) : α :=
  ∑ t, 1 / 2 * frob (residualW (Minv t) G θ (b t) (E t))
    (residualW (Minv t) G θ (b t) (E t))

lemma bbtWhite_eq_frob {Kc T : ℕ} (Minv : Matrix (Fin Kc) (Fin Kc) α)
    (b : Matrix (Fin Kc) (Fin T) α) :
    bbtWhite Minv b = frob (Minv * b) (Minv * b) := by
  unfold bbtWhite
  have h1 : (Minv * (b * bᵀ))ᵀ = b * bᵀ * Minvᵀ := by
    rw [Matrix.transpose_mul, Matrix.transpose_mul, Matrix.transpose_transpose]
  rw [h1, frob_eq_trace, Matrix.transpose_mul]
  have h2 : Minv * (b * bᵀ * Minvᵀ) = Minv * b * (bᵀ * Minvᵀ) := by
    simp [Matrix.mul_assoc]
  rw [h2, Matrix.trace_mul_comm]

lemma bEWhite_cross {Kc T N F : ℕ} (Minv : Matrix (Fin Kc) (Fin Kc) α)
    (G : Matrix (Fin Kc) (Fin N) α) (θ : Matrix (Fin N) (Fin F) α)
    (b : Matrix (Fin Kc) (Fin T) α) (E : Matrix (Fin T) (Fin F) α) :
    frob (bEWhite Minv b E) (Minv * G * θ) =
      frob (Minv * b) (Minv * G * θ * Eᵀ) := by
  unfold bEWhite
  rw [frob_eq_trace, frob_eq_trace]
  simp only [Matrix.transpose_mul, Matrix.mul_assoc]
  rw [Matrix.trace_mul_comm]
  simp [Matrix.mul_assoc]

lemma white_quad_term {Kc T N F : ℕ} (Minv : Matrix (Fin Kc) (Fin Kc) α)
    (G : Matrix (Fin Kc) (Fin N) α) (θ : Matrix (Fin N) (Fin F) α)
    (E : Matrix (Fin T) (Fin F) α) :
    frob (Minv * G * θ) (Minv * G * θ * (Eᵀ * E)) =
      frob (Minv * G * θ * Eᵀ) (Minv * G * θ * Eᵀ) := by
  rw [frob_eq_trace, frob_eq_trace]
  simp only [Matrix.transpose_mul, Matrix.mul_assoc]
  conv_rhs => rw [Matrix.trace_mul_comm]
  simp [Matrix.mul_assoc]

lemma residualW_eq_sub {Kc T N F : ℕ} (Minv : Matrix (Fin Kc) (Fin Kc) α)
    (G : Matrix (Fin Kc) (Fin N) α) (θ : Matrix (Fin N) (Fin F) α)
    (b : Matrix (Fin Kc) (Fin T) α) (E : Matrix (Fin T) (Fin F) α) :
    residualW Minv G θ b E = Minv * b - Minv * G * θ * Eᵀ := by
  unfold residualW
  rw [Matrix.mul_sub]
  simp [Matrix.mul_assoc]

lemma fTrial_eq_explicit {Kc T N F : ℕ} (Minv : Matrix (Fin Kc) (Fin Kc) α)
    (G : Matrix (Fin Kc) (Fin N) α) (θ : Matrix (Fin N) (Fin F) α)
    (b : Matrix (Fin Kc) (Fin T) α) (E : Matrix (Fin T) (Fin F) α) :
    fTrial (Minv * G) θ (bbtWhite Minv b) (bEWhite Minv b E) (Eᵀ * E) =
      1 / 2 * frob (residualW Minv G θ b E) (residualW Minv G θ b E) := by
  rw [residualW_eq_sub, frob_sub_left, frob_sub_right, frob_sub_right]
  unfold fTrial
  rw [bbtWhite_eq_frob, bEWhite_cross, white_quad_term,
    frob_comm (Minv * G * θ * Eᵀ) (Minv * b)]
  ring

lemma gradfTrial_eq_explicit {Kc T N F : ℕ} (Minv : Matrix (Fin Kc) (Fin Kc) α)
    (G : Matrix (Fin Kc) (Fin N) α) (θ : Matrix (Fin N) (Fin F) α)
    (b : Matrix (Fin Kc) (Fin T) α) (E : Matrix (Fin T) (Fin F) α) :
    gradfTrial (Minv * G) θ (bEWhite Minv b E) (Eᵀ * E) =
      -((Minv * G)ᵀ * residualW Minv G θ b E * E) := by
  unfold gradfTrial bEWhite residualW
  simp [Matrix.mul_sub, Matrix.sub_mul, Matrix.mul_assoc]

lemma residual_cross_grad {Kc T N F : ℕ} (Minv : Matrix (Fin Kc) (Fin Kc) α)
    (G : Matrix (Fin Kc) (Fin N) α) (θ H : Matrix (Fin N) (Fin F) α)
    (b : Matrix (Fin Kc) (Fin T) α) (E : Matrix (Fin T) (Fin F) α) :
    frob (residualW Minv G θ b E) (Minv * G * H * Eᵀ) =
      frob ((Minv * G)ᵀ * residualW Minv G θ b E * E) H := by
  rw [frob_eq_trace, frob_eq_trace]
  simp only [Matrix.transpose_mul, Matrix.transpose_transpose, Matrix.mul_assoc]
  conv_rhs => rw [Matrix.trace_mul_comm]
  simp [Matrix.mul_assoc]

lemma taylor_trial {Kc T N F : ℕ} (Minv : Matrix (Fin Kc) (Fin Kc) α)
    (G : Matrix (Fin Kc) (Fin N) α) (θ H : Matrix (Fin N) (Fin F) α)
    (b : Matrix (Fin Kc) (Fin T) α) (E : Matrix (Fin T) (Fin F) α) :
    1 / 2 * frob (residualW Minv G (θ + H) b E) (residualW Minv G (θ + H) b E) =
      1 / 2 * frob (residualW Minv G θ b E) (residualW Minv G θ b E) +
      frob (-((Minv * G)ᵀ * residualW Minv G θ b E * E)) H +
      1 / 2 * frob (Minv * G * H * Eᵀ) (Minv * G * H * Eᵀ) := by
  have hR : residualW Minv G (θ + H) b E =
      residualW Minv G θ b E - Minv * G * H * Eᵀ := by
    unfold residualW
    rw [Matrix.mul_add, Matrix.add_mul, ← sub_sub, Matrix.mul_sub, Matrix.mul_sub]
    simp [Matrix.mul_assoc]
  rw [hR, frob_sub_left, frob_sub_right, frob_sub_right,
    frob_comm (Minv * G * H * Eᵀ) (residualW Minv G θ b E),
    residual_cross_grad, frob_neg_left]
  ring

/-- Claim C1: for every coefficient matrix `theta`, the `funct` and
`grad_funct` closures that `_construct_f` builds from the cached per-trial
statistics `(bbt, bE, EtE)`, whitened per trial, equal the explicit
per-timepoint computation: `funct` is the sum over trials of half the
squared Frobenius norm of the whitened residual, and `grad_funct` is the
gradient of that same expression with the same sign — stated exactly, for
every direction `H`, as the first-order expansion
`obj(theta + H) = obj(theta) + ⟨grad(theta), H⟩ + (nonneg quadratic term)`,
whose linear coefficient is `grad_funct theta` itself. -/
theorem construct_f_refines_explicit {ntr Kc N F : ℕ} (Tf : Fin (ntr + 1) → ℕ)
    (Minv : Fin (ntr + 1) → Matrix (Fin Kc) (Fin Kc) α)
    (b : ∀ t, Matrix (Fin Kc) (Fin (Tf t)) α)
    (E : ∀ t, Matrix (Fin (Tf t)) (Fin F) α)
    (G : Matrix (Fin Kc) (Fin N) α) (θ : Matrix (Fin N) (Fin F) α) :
    funct Tf Minv b E G θ = objExplicit Tf Minv b E G θ ∧
    gradFunct Tf Minv b E G θ =
      ∑ t, -((Minv t * G)ᵀ * residualW (Minv t) G θ (b t) (E t) * E t) ∧
    ∀ H, objExplicit Tf Minv b E G (θ + H) =
      objExplicit Tf Minv b E G θ + frob (gradFunct Tf Minv b E G θ) H +
      ∑ t, 1 / 2 * frob (Minv t * G * H * (E t)ᵀ) (Minv t * G * H * (E t)ᵀ) := by
  have hgrad : gradFunct Tf Minv b E G θ =
      ∑ t, -((Minv t * G)ᵀ * residualW (Minv t) G θ (b t) (E t) * E t) := by
    unfold gradFunct
    exact Finset.sum_congr rfl fun t _ => gradfTrial_eq_explicit _ _ _ _ _
  refine ⟨?_, hgrad, ?_⟩
  · unfold funct objExplicit
    exact Finset.sum_congr rfl fun t _ => fTrial_eq_explicit _ _ _ _ _
  · intro H
    unfold objExplicit
    calc ∑ t, 1 / 2 * frob (residualW (Minv t) G (θ + H) (b t) (E t))
          (residualW (Minv t) G (θ + H) (b t) (E t))
        = ∑ t, (1 / 2 * frob (residualW (Minv t) G θ (b t) (E t))
              (residualW (Minv t) G θ (b t) (E t)) +
            frob (-((Minv t * G)ᵀ * residualW (Minv t) G θ (b t) (E t) * E t)) H +
            1 / 2 * frob (Minv t * G * H * (E t)ᵀ) (Minv t * G * H * (E t)ᵀ)) :=
          Finset.sum_congr rfl fun t _ => taylor_trial _ _ _ _ _ _
      _ = ∑ t, 1 / 2 * frob (residualW (Minv t) G θ (b t) (E t))
              (residualW (Minv t) G θ (b t) (E t)) +
            frob (gradFunct Tf Minv b E G θ) H +
            ∑ t, 1 / 2 * frob (Minv t * G * H * (E t)ᵀ)
              (Minv t * G * H * (E t)ᵀ) := by
          rw [Finset.sum_add_distrib, Finset.sum_add_distrib, hgrad,
            frob_sum_left]

end DstRF
